import Mathlib

/-!
Verification of the namespace cursor and module-tree traversal layer of the
sway compiler (`sway-core/src/semantic_analysis/namespace/namespace.rs`).

The embedding is shallow: `Module` is the tree node type, `Namespace` is the
cursor, and each Rust method becomes a Lean function.  Rust panics (the
`panic!` / `expect` / `assert!` calls and the unchecked indexing in
`Namespace::module`) are modelled by `Option.none`: a `none` result marks a
process abort, `some` a normal return.  Identifiers become `String`, source
spans become `Nat`.
-/

namespace Sway

/-- Module visibility, from the `Visibility` enum referenced by
`enter_submodule` (public or private). -/
inductive Visibility where
  | priv : Visibility
  | pub : Visibility
deriving DecidableEq, Repr

/-- Modelled from the spec: the `Module` type (file `module.rs`) is not part of
the sources; `namespace.rs` reaches its fields through `Deref`.  Per the spec's
data model a module owns child submodules keyed by name, a declaration table
(opaque, modelled by `items`), an optional `name`, an optional `span`, a
`visibility` and an external flag (`is_external` in the source, `is_ext` here).
Children are an association list; `List.lookup` takes the first matching
entry, matching map semantics when keys are distinct. -/
inductive Module where
  | mk (submodules : List (String × Module)) (name : Option String)
      (span : Option Nat) (visibility : Visibility) (is_ext : Bool)
      (items : List String) : Module

/-- The child submodules of a module. -/
def Module.submodules : Module → List (String × Module)
  | .mk s _ _ _ _ _ => s

/-- The optional name of a module. -/
def Module.name : Module → Option String
  | .mk _ n _ _ _ _ => n

/-- The optional span of a module. -/
def Module.span : Module → Option Nat
  | .mk _ _ sp _ _ _ => sp

/-- The visibility of a module. -/
def Module.visibility : Module → Visibility
  | .mk _ _ _ v _ _ => v

/-- The external flag of a module (`is_external` in the source). -/
def Module.is_ext : Module → Bool
  | .mk _ _ _ _ e _ => e

/-- The opaque declaration table of a module. -/
def Module.items : Module → List String
  | .mk _ _ _ _ _ it => it

/-- Replace the submodule list of a module, keeping every other field. -/
def Module.setSubmodules : Module → List (String × Module) → Module
  | .mk _ n sp v e it, s => .mk s n sp v e it

/-- The four field writes of `enter_submodule` (namespace.rs lines 139-142):
`self.name = Some(mod_name); self.span = Some(module_span);
self.visibility = visibility; self.is_external = false;`. -/
def Module.setMeta : Module → String → Nat → Visibility → Module
  | .mk s _ _ _ _ it, n, sp, v => .mk s (some n) (some sp) v false it

/-- Resolve a path against a module tree, step by step through the submodule
lists.  `none` models the abort of the unchecked indexing
`self.root.module[&self.mod_path]` when a segment is missing. -/
def moduleAt : Module → List String → Option Module
  | m, [] => some m
  | m, k :: ks =>
    match m.submodules.lookup k with
    | some c => moduleAt c ks
    | none => none

/-- Apply `f` to the value of the first entry with key `k`, leaving the rest of
the association list unchanged. -/
def updateFirst (k : String) (f : Module → Module) :
    List (String × Module) → List (String × Module)
  | [] => []
  | (k', v) :: rest =>
    if k' = k then (k', f v) :: rest else (k', v) :: updateFirst k f rest

/-- Apply `f` to the module at `p` inside the tree `m`; `none` when `p` does
not resolve (the unchecked-indexing abort of `Namespace::module_mut`). -/
def moduleModifyAt : Module → List String → (Module → Module) → Option Module
  | m, [], f => some (f m)
  | m, k :: ks, f =>
    match m.submodules.lookup k with
    | some c =>
      match moduleModifyAt c ks f with
      | some c' => some (m.setSubmodules (updateFirst k (fun _ => c') m.submodules))
      | none => none
    | none => none

/-- `self.submodules.entry(mod_name.to_string()).or_insert(init)`
(namespace.rs line 131): keep the existing child when present, otherwise
insert `v` under key `k`. -/
def entryOrInsert (ms : List (String × Module)) (k : String) (v : Module) :
    List (String × Module) :=
  match ms.lookup k with
  | some _ => ms
  | none => ms ++ [(k, v)]

/-- Modelled from the spec: the `Root` type (file `root.rs`) is not part of the
sources.  Per the spec a ModuleTree owns exactly one root `Module`; `root.name`
in `namespace.rs` reaches the root module's name through `Deref`. -/
structure Root where
  module : Module

/-- The `Namespace` struct (namespace.rs lines 21-41): the seed `init` module,
the project `root` and the current `mod_path`. -/
structure Namespace where
  init : Module
  root : Root
  mod_path : List String

/-- `Namespace::init_root` (lines 45-53): the root of the tree is a clone of
`init` (`Root::from(init.clone())`, per the spec constructing a tree whose root
is a copy of the seed) and the cursor starts with the empty path. -/
def Namespace.init_root (init : Module) : Namespace :=
  { init := init, root := ⟨init⟩, mod_path := [] }

/-- `Namespace::module` (lines 82-84): the module at `mod_path`, via the
unchecked indexing `&self.root.module[&self.mod_path]`; `none` models the
process abort when the path has no node. -/
def Namespace.module (n : Namespace) : Option Module :=
  moduleAt n.root.module n.mod_path

/-- `Namespace::enter_submodule` (lines 124-147).  First
`self.submodules.entry(mod_name).or_insert(init.clone())` mutates the module
at the current `mod_path` (through `DerefMut`); then `mod_path` is replaced by
`mod_path ++ [mod_name]`; the four field writes that follow go through
`DerefMut` again and hence hit the module at the new path.  The returned pair
is the new namespace together with `parent_mod_path`, the saved path the
`SubmoduleNamespace` guard restores on drop.  `none` models the abort of the
unchecked indexing when a path fails to resolve. -/
def Namespace.enter_submodule (n : Namespace) (mod_name : String)
    (visibility : Visibility) (module_span : Nat) :
    Option (Namespace × List String) :=
  match moduleModifyAt n.root.module n.mod_path
      (fun cur => cur.setSubmodules (entryOrInsert cur.submodules mod_name n.init)) with
  | none => none
  | some root1 =>
    match moduleModifyAt root1 (n.mod_path ++ [mod_name])
        (fun cur => cur.setMeta mod_name module_span visibility) with
    | none => none
    | some root2 =>
      some (Namespace.mk n.init ⟨root2⟩ (n.mod_path ++ [mod_name]), n.mod_path)

/-- Modelled from the spec: the `Drop` implementation of `SubmoduleNamespace`
(file `submodule_namespace.rs`) is not part of the sources.  Per the spec the
guard's release restores `mod_path` to the saved parent path and touches no
other `Namespace` field. -/
def Namespace.release (n : Namespace) (parent_mod_path : List String) :
    Namespace :=
  { n with mod_path := parent_mod_path }

/-- `Namespace::module_is_submodule_of` (lines 160-196).  `none` models the
`panic!` on a missing root name and the `expect` on an empty absolute path. -/
def Namespace.module_is_submodule_of (n : Namespace)
    (absolute_module_path : List String) (true_if_same : Bool) : Option Bool :=
  match n.root.module.name with
  | none => none
  | some root_name =>
    match absolute_module_path with
    | [] => none
    | package_name :: modules =>
      if root_name ≠ package_name then some false
      else if n.mod_path.length < modules.length then some false
      else if (modules.zip n.mod_path).all fun p => p.1 == p.2 then
        if n.mod_path.length = modules.length then some true_if_same
        else some true
      else some false

/-- `Namespace::module_is_external` (lines 200-209).  `none` models the
`panic!` on a missing root name and the `assert!` on an empty path. -/
def Namespace.module_is_ext (n : Namespace)
    (absolute_module_path : List String) : Option Bool :=
  match n.root.module.name with
  | none => none
  | some root_name =>
    match absolute_module_path with
    | [] => none
    | first :: _ => some (root_name != first)

/-- Well-formed module tree: at every node the child names are distinct, so
the tree has exactly one node per path. -/
inductive WF : Module → Prop where
  | mk : ∀ m : Module, (m.submodules.map Prod.fst).Nodup →
      (∀ p ∈ m.submodules, WF p.2) → WF m

/-- One traversal operation of the type-checking pass: entering a submodule
or releasing the innermost live guard. -/
inductive Op where
  | enter (mod_name : String) (visibility : Visibility) (module_span : Nat)
  | release

/-- Traversal state: the namespace together with the stack of saved parent
paths of the live guards, innermost first.  The stack mirrors the strict
last-in-first-out nesting of `SubmoduleNamespace` guards. -/
structure TravState where
  ns : Namespace
  guards : List (List String)

/-- Run one operation: `enter` pushes the saved parent path, `release` pops
the innermost guard and restores its path. -/
def stepOp (s : TravState) : Op → Option TravState
  | .enter a v sp =>
    match s.ns.enter_submodule a v sp with
    | some (n', p) => some ⟨n', p :: s.guards⟩
    | none => none
  | .release =>
    match s.guards with
    | p :: rest => some ⟨s.ns.release p, rest⟩
    | [] => none

/-- Run a sequence of traversal operations from a state. -/
def runOps : TravState → List Op → Option TravState
  | s, [] => some s
  | s, op :: ops =>
    match stepOp s op with
    | some s' => runOps s' ops
    | none => none

/-- The cursor and every saved guard path address existing tree nodes. -/
def CursorInTree (s : TravState) : Prop :=
  (moduleAt s.ns.root.module s.ns.mod_path).isSome ∧
    ∀ p ∈ s.guards, (moduleAt s.ns.root.module p).isSome

/-! ## Helper lemmas -/

theorem submodules_setSubmodules (m : Module) (s : List (String × Module)) :
    (m.setSubmodules s).submodules = s := by cases m; rfl

theorem submodules_setMeta (m : Module) (a : String) (sp : Nat)
    (v : Visibility) : (m.setMeta a sp v).submodules = m.submodules := by
  cases m; rfl

theorem name_setMeta (m : Module) (a : String) (sp : Nat) (v : Visibility) :
    (m.setMeta a sp v).name = some a := by cases m; rfl

theorem span_setMeta (m : Module) (a : String) (sp : Nat) (v : Visibility) :
    (m.setMeta a sp v).span = some sp := by cases m; rfl

theorem visibility_setMeta (m : Module) (a : String) (sp : Nat)
    (v : Visibility) : (m.setMeta a sp v).visibility = v := by cases m; rfl

theorem is_ext_setMeta (m : Module) (a : String) (sp : Nat) (v : Visibility) :
    (m.setMeta a sp v).is_ext = false := by cases m; rfl

theorem moduleAt_cons (m : Module) (k : String) (ks : List String) :
    moduleAt m (k :: ks) =
      match m.submodules.lookup k with
      | some c => moduleAt c ks
      | none => none := rfl

theorem lookup_updateFirst_self (k : String) (f : Module → Module)
    (l : List (String × Module)) :
    (updateFirst k f l).lookup k = (l.lookup k).map f := by
  induction l with
  | nil => rfl
  | cons q rest ih =>
    obtain ⟨k', v⟩ := q
    by_cases hk : k' = k
    · subst hk; simp [updateFirst, List.lookup]
    · simp only [updateFirst, if_neg hk, List.lookup]
      rw [show (k == k') = false by simp [Ne.symm hk]]
      exact ih

theorem lookup_updateFirst_ne (k j : String) (hj : j ≠ k)
    (f : Module → Module) (l : List (String × Module)) :
    (updateFirst k f l).lookup j = l.lookup j := by
  induction l with
  | nil => rfl
  | cons q rest ih =>
    obtain ⟨k', v⟩ := q
    by_cases hk : k' = k
    · subst hk
      simp only [updateFirst, if_pos rfl, List.lookup]
      rw [show (j == k') = false by simp [hj]]
    · simp only [updateFirst, if_neg hk, List.lookup]
      cases hjk : j == k' <;> simp [ih]

theorem updateFirst_map_fst (k : String) (f : Module → Module)
    (l : List (String × Module)) :
    (updateFirst k f l).map Prod.fst = l.map Prod.fst := by
  induction l with
  | nil => rfl
  | cons q rest ih =>
    obtain ⟨k', v⟩ := q
    by_cases hk : k' = k <;> simp [updateFirst, hk, ih]

theorem lookup_mem {l : List (String × Module)} {k : String} {v : Module}
    (h : l.lookup k = some v) : (k, v) ∈ l := by
  induction l with
  | nil => cases h
  | cons q rest ih =>
    obtain ⟨k', w⟩ := q
    by_cases hk : k = k'
    · subst hk
      simp [List.lookup] at h
      subst h
      exact List.mem_cons_self _ _
    · simp only [List.lookup] at h
      rw [show (k == k') = false by simp [hk]] at h
      exact List.mem_cons_of_mem _ (ih h)

theorem lookup_eq_none_iff {l : List (String × Module)} {k : String} :
    l.lookup k = none ↔ k ∉ l.map Prod.fst := by
  induction l with
  | nil => simp
  | cons q rest ih =>
    obtain ⟨k', v⟩ := q
    by_cases hk : k = k'
    · subst hk; simp [List.lookup]
    · simp only [List.lookup, List.map_cons, List.mem_cons]
      rw [show (k == k') = false by simp [hk]]
      simp [hk, ih]

theorem lookup_append_some {l : List (String × Module)} {k : String}
    {v : Module} (h : l.lookup k = some v) (l' : List (String × Module)) :
    (l ++ l').lookup k = some v := by
  induction l with
  | nil => cases h
  | cons q rest ih =>
    obtain ⟨k', w⟩ := q
    simp only [List.lookup, List.cons_append] at h ⊢
    cases hk : k == k' <;> rw [hk] at h
    · exact ih h
    · exact h

theorem lookup_append_none {l : List (String × Module)} {k : String}
    (h : l.lookup k = none) (l' : List (String × Module)) :
    (l ++ l').lookup k = l'.lookup k := by
  induction l with
  | nil => rfl
  | cons q rest ih =>
    obtain ⟨k', w⟩ := q
    simp only [List.lookup, List.cons_append] at h ⊢
    cases hk : k == k' <;> rw [hk] at h
    · exact ih h
    · cases h

theorem lookup_entryOrInsert_self (l : List (String × Module)) (k : String)
    (v : Module) :
    (entryOrInsert l k v).lookup k = some ((l.lookup k).getD v) := by
  unfold entryOrInsert
  cases hl : l.lookup k with
  | some c => simp [hl]
  | none =>
    rw [lookup_append_none hl]
    simp [List.lookup]

theorem entryOrInsert_map_fst (l : List (String × Module)) (k : String)
    (v : Module) :
    (entryOrInsert l k v).map Prod.fst =
      if (l.lookup k).isSome then l.map Prod.fst
      else l.map Prod.fst ++ [k] := by
  unfold entryOrInsert
  cases hl : l.lookup k <;> simp [hl]

/-- A successful `moduleModifyAt` finds a module at the path and replaces it
by its image under `f`, as observed by `moduleAt` at that path. -/
theorem moduleAt_modify_self {m m' : Module} {p : List String}
    {f : Module → Module} (h : moduleModifyAt m p f = some m') :
    ∃ c, moduleAt m p = some c ∧ moduleAt m' p = some (f c) := by
  induction p generalizing m m' with
  | nil =>
    simp only [moduleModifyAt, Option.some.injEq] at h
    subst h
    exact ⟨m, rfl, rfl⟩
  | cons k ks ih =>
    unfold moduleModifyAt at h
    split at h
    · split at h
      · rename_i x1 c hl x2 c' hm
        simp only [Option.some.injEq] at h
        subst h
        obtain ⟨d, hd1, hd2⟩ := ih hm
        refine ⟨d, ?_, ?_⟩
        · rw [moduleAt_cons, hl]
          exact hd1
        · rw [moduleAt_cons, submodules_setSubmodules,
            lookup_updateFirst_self, hl]
          exact hd2
      · simp at h
    · simp at h

/-- A `moduleModifyAt` whose local update function preserves the
resolvability of every relative path also preserves the resolvability of
every path of the whole tree. -/
theorem moduleAt_modify_isSome {m m' : Module} {p : List String}
    {f : Module → Module}
    (hf : ∀ c q, (moduleAt c q).isSome → (moduleAt (f c) q).isSome)
    (h : moduleModifyAt m p f = some m') :
    ∀ q, (moduleAt m q).isSome → (moduleAt m' q).isSome := by
  induction p generalizing m m' with
  | nil =>
    simp only [moduleModifyAt, Option.some.injEq] at h
    subst h
    exact hf m
  | cons k ks ih =>
    unfold moduleModifyAt at h
    split at h
    · split at h
      · rename_i x1 c hl x2 c' hm
        simp only [Option.some.injEq] at h
        subst h
        intro q hq
        cases q with
        | nil => simp [moduleAt]
        | cons j js =>
          rw [moduleAt_cons, submodules_setSubmodules]
          rw [moduleAt_cons] at hq
          by_cases hjk : j = k
          · subst hjk
            rw [hl] at hq
            rw [lookup_updateFirst_self, hl]
            exact ih hm js hq
          · rw [lookup_updateFirst_ne k j hjk]
            exact hq
      · simp at h
    · simp at h

/-- A successful `moduleModifyAt` at an extended path `p ++ [a]` keeps a node
at `p` and does not change the set of child names recorded there. -/
theorem moduleAt_modify_child_keys {m m' : Module} {p : List String}
    {a : String} {f : Module → Module}
    (h : moduleModifyAt m (p ++ [a]) f = some m') :
    ∃ c c', moduleAt m p = some c ∧ moduleAt m' p = some c' ∧
      c'.submodules.map Prod.fst = c.submodules.map Prod.fst := by
  induction p generalizing m m' with
  | nil =>
    simp only [List.nil_append] at h
    unfold moduleModifyAt at h
    cases hl : m.submodules.lookup a with
    | none => rw [hl] at h; cases h
    | some c =>
      rw [hl] at h
      simp only [moduleModifyAt, Option.some.injEq] at h
      subst h
      exact ⟨m, _, rfl, rfl, by
        rw [submodules_setSubmodules, updateFirst_map_fst]⟩
  | cons k ks ih =>
    rw [List.cons_append] at h
    unfold moduleModifyAt at h
    split at h
    · split at h
      · rename_i x1 c hl x2 c' hm
        simp only [Option.some.injEq] at h
        subst h
        obtain ⟨d, d', hd1, hd2, hd3⟩ := ih hm
        refine ⟨d, d', ?_, ?_, hd3⟩
        · rw [moduleAt_cons, hl]
          exact hd1
        · rw [moduleAt_cons, submodules_setSubmodules,
            lookup_updateFirst_self, hl]
          exact hd2
      · simp at h
    · simp at h

theorem WF.nodupKeys {m : Module} (h : WF m) :
    (m.submodules.map Prod.fst).Nodup := by cases h; assumption

theorem WF.child {m : Module} (h : WF m) : ∀ p ∈ m.submodules, WF p.2 := by
  cases h; assumption

theorem wf_setSubmodules {m : Module} {s : List (String × Module)}
    (hk : (s.map Prod.fst).Nodup) (hc : ∀ p ∈ s, WF p.2) :
    WF (m.setSubmodules s) :=
  WF.mk _ (by rw [submodules_setSubmodules]; exact hk)
    (by rw [submodules_setSubmodules]; exact hc)

theorem wf_setMeta {m : Module} (h : WF m) (a : String) (sp : Nat)
    (v : Visibility) : WF (m.setMeta a sp v) :=
  WF.mk _ (by rw [submodules_setMeta]; exact h.nodupKeys)
    (by rw [submodules_setMeta]; exact h.child)

theorem mem_updateFirst {l : List (String × Module)} {k : String}
    {f : Module → Module} {q : String × Module}
    (h : q ∈ updateFirst k f l) :
    q ∈ l ∨ ∃ v, (k, v) ∈ l ∧ q = (k, f v) := by
  induction l with
  | nil => cases h
  | cons r rest ih =>
    obtain ⟨k', v⟩ := r
    by_cases hk : k' = k
    · subst hk
      rw [updateFirst, if_pos rfl] at h
      cases h with
      | head => exact Or.inr ⟨v, List.mem_cons_self _ _, rfl⟩
      | tail _ h => exact Or.inl (List.mem_cons_of_mem _ h)
    · rw [updateFirst, if_neg hk] at h
      cases h with
      | head => exact Or.inl (List.mem_cons_self _ _)
      | tail _ h =>
        rcases ih h with h' | ⟨w, hw, hq⟩
        · exact Or.inl (List.mem_cons_of_mem _ h')
        · exact Or.inr ⟨w, List.mem_cons_of_mem _ hw, hq⟩

/-- The entry-or-insert update of `enter_submodule` never breaks the
resolvability of an existing relative path. -/
theorem keeps_entryOrInsert (a : String) (ini : Module) :
    ∀ c q, (moduleAt c q).isSome →
      (moduleAt (c.setSubmodules (entryOrInsert c.submodules a ini)) q).isSome := by
  intro c q hq
  cases q with
  | nil => simp [moduleAt]
  | cons j js =>
    rw [moduleAt_cons, submodules_setSubmodules]
    rw [moduleAt_cons] at hq
    cases hl : c.submodules.lookup j with
    | none => rw [hl] at hq; simp at hq
    | some d =>
      rw [hl] at hq
      have hlook : (entryOrInsert c.submodules a ini).lookup j = some d := by
        unfold entryOrInsert
        cases hla : c.submodules.lookup a with
        | some _ => exact hl
        | none => exact lookup_append_some hl _
      rw [hlook]
      exact hq

/-- The metadata update of `enter_submodule` never breaks the resolvability
of a relative path. -/
theorem keeps_setMeta (a : String) (sp : Nat) (v : Visibility) :
    ∀ c q, (moduleAt c q).isSome →
      (moduleAt (c.setMeta a sp v) q).isSome := by
  intro c q hq
  cases q with
  | nil => simp [moduleAt]
  | cons j js =>
    rw [moduleAt_cons, submodules_setMeta]
    rw [moduleAt_cons] at hq
    exact hq

/-- The entry-or-insert update of `enter_submodule` keeps a node well-formed
when the inserted seed is well-formed. -/
theorem wf_entryOrInsert {c ini : Module} (hc : WF c) (hini : WF ini)
    (a : String) :
    WF (c.setSubmodules (entryOrInsert c.submodules a ini)) := by
  refine wf_setSubmodules ?_ ?_
  · rw [entryOrInsert_map_fst]
    cases hl : c.submodules.lookup a with
    | some d => simp [hc.nodupKeys]
    | none =>
      have ha : a ∉ c.submodules.map Prod.fst := lookup_eq_none_iff.mp hl
      simp [List.nodup_append, hc.nodupKeys, ha]
  · intro p hp
    unfold entryOrInsert at hp
    cases hla : c.submodules.lookup a with
    | some d =>
      rw [hla] at hp
      exact hc.child _ hp
    | none =>
      rw [hla] at hp
      rcases List.mem_append.mp hp with hp' | hp'
      · exact hc.child _ hp'
      · simp only [List.mem_singleton] at hp'
        rw [hp']
        exact hini

/-- `moduleModifyAt` with a WF-preserving local update keeps the whole tree
well-formed. -/
theorem wf_moduleModifyAt {m m' : Module} {p : List String}
    {f : Module → Module} (hf : ∀ c, WF c → WF (f c))
    (h : moduleModifyAt m p f = some m') (hm : WF m) : WF m' := by
  induction p generalizing m m' with
  | nil =>
    simp only [moduleModifyAt, Option.some.injEq] at h
    subst h
    exact hf m hm
  | cons k ks ih =>
    unfold moduleModifyAt at h
    split at h
    · split at h
      · rename_i x1 c hl x2 c' hmm
        simp only [Option.some.injEq] at h
        subst h
        have hcwf : WF c := hm.child _ (lookup_mem hl)
        have hc'wf : WF c' := ih hmm hcwf
        refine wf_setSubmodules ?_ ?_
        · rw [updateFirst_map_fst]
          exact hm.nodupKeys
        · intro q hq
          rcases mem_updateFirst hq with hq' | ⟨w, _, hq'⟩
          · exact hm.child _ hq'
          · rw [hq']
            exact hc'wf
      · simp at h
    · simp at h

/-- The segment-wise `zip`-and-compare of the source (lines 182-185) agrees
with equality against the equal-length prefix, whenever the right list is at
least as long as the left one. -/
theorem zip_all_beq_eq_take (as bs : List String) (h : as.length ≤ bs.length) :
    ((as.zip bs).all fun p => p.1 == p.2) = decide (as = bs.take as.length) := by
  induction as generalizing bs with
  | nil => simp
  | cons a as ih =>
    cases bs with
    | nil => simp at h
    | cons b bs =>
      simp only [List.zip_cons_cons, List.all_cons, List.take_succ_cons]
      rw [ih bs (by simpa using h)]
      by_cases hab : a = b <;> simp [hab]

/-- Unfolding `enter_submodule` on a successful call: the saved parent path is
the old `mod_path` and the new `mod_path` is the old one extended by the
submodule name; `init` is unchanged. -/
theorem enter_submodule_parts {n n' : Namespace} {a : String} {v : Visibility}
    {sp : Nat} {p : List String}
    (h : n.enter_submodule a v sp = some (n', p)) :
    p = n.mod_path ∧ n'.mod_path = n.mod_path ++ [a] ∧ n'.init = n.init := by
  unfold Namespace.enter_submodule at h
  split at h
  · exact absurd h (by simp)
  · split at h
    · exact absurd h (by simp)
    · simp only [Option.some.injEq, Prod.mk.injEq] at h
      obtain ⟨hn, hp⟩ := h
      subst hn hp
      exact ⟨rfl, rfl, rfl⟩

/-! ## Concrete data for witnesses -/

/-- A leaf module named "pkg" with no children, used in concrete witnesses. -/
def pkgRootModule : Module := .mk [] (some "pkg") none .priv false []

/-- The namespace obtained by initialising at a root clone of
`pkgRootModule`. -/
def wNs0 : Namespace := Namespace.init_root pkgRootModule

/-- Result of entering submodule "a" from `wNs0`. -/
def wEnterA : Namespace × List String :=
  (wNs0.enter_submodule "a" .pub 0).getD (wNs0, [])

/-- Result of entering submodule "b" from `wEnterA`. -/
def wEnterB : Namespace × List String :=
  ((wEnterA.1).enter_submodule "b" .pub 1).getD (wNs0, [])

/-- Result of entering submodule "c" from `wEnterB`. -/
def wEnterC : Namespace × List String :=
  ((wEnterB.1).enter_submodule "c" .pub 2).getD (wNs0, [])

/-- A concrete operation sequence: enter "a", enter "b", release, enter "c",
release, release. -/
def wOps : List Op :=
  [.enter "a" .pub 0, .enter "b" .pub 1, .release, .enter "c" .priv 2,
    .release, .release]

/-- The traversal state after running `wOps` from the root of `wNs0`. -/
def wFinal : TravState := (runOps ⟨wNs0, []⟩ wOps).getD ⟨wNs0, []⟩

/-! ## Claims -/

/-- C1: entering a submodule and then releasing the returned guard restores
`mod_path` to its pre-entry value; after nested enters of `a`, `b`, `c`,
releasing the guards in order `c`, `b`, `a` restores the path to the
respective pre-entry value at each step, in reverse order of entry. -/
theorem enter_release_stack (n n1 n2 n3 : Namespace) (p1 p2 p3 : List String)
    (a b c : String) (va vb vc : Visibility) (sa sb sc : Nat)
    (h1 : n.enter_submodule a va sa = some (n1, p1))
    (h2 : n1.enter_submodule b vb sb = some (n2, p2))
    (h3 : n2.enter_submodule c vc sc = some (n3, p3)) :
    (n1.release p1).mod_path = n.mod_path ∧
    (n3.release p3).mod_path = n2.mod_path ∧
    ((n3.release p3).release p2).mod_path = n1.mod_path ∧
    (((n3.release p3).release p2).release p1).mod_path = n.mod_path := by
  obtain ⟨e1, -, -⟩ := enter_submodule_parts h1
  obtain ⟨e2, -, -⟩ := enter_submodule_parts h2
  obtain ⟨e3, -, -⟩ := enter_submodule_parts h3
  exact ⟨e1, e3, e2, e1⟩

/-- Witness for C1 at a concrete namespace: enter "a", "b", "c" from the
root of package "pkg" and release in reverse order. -/
theorem enter_release_stack_witness :
    ((wEnterA.1).release wEnterA.2).mod_path = wNs0.mod_path ∧
    ((wEnterC.1).release wEnterC.2).mod_path = (wEnterB.1).mod_path ∧
    (((wEnterC.1).release wEnterC.2).release wEnterB.2).mod_path =
      (wEnterA.1).mod_path ∧
    ((((wEnterC.1).release wEnterC.2).release wEnterB.2).release
      wEnterA.2).mod_path = wNs0.mod_path :=
  enter_release_stack wNs0 wEnterA.1 wEnterB.1 wEnterC.1
    wEnterA.2 wEnterB.2 wEnterC.2 "a" "b" "c" .pub .pub .pub 0 1 2 rfl rfl rfl

/-- C2: with the tree's package name set, `module_is_submodule_of` on a
non-empty absolute path `(pkg, rest)` returns false when `pkg` differs from
the package name; false when `mod_path` is shorter than `rest`; when `rest`
equals the equal-length prefix of `mod_path` it returns `true_if_same` for
exactly equal lengths and true for strictly longer `mod_path`; and false
otherwise. -/
theorem module_is_submodule_of_spec (n : Namespace) (rn pkg : String)
    (rest : List String) (tif : Bool) (h : n.root.module.name = some rn) :
    n.module_is_submodule_of (pkg :: rest) tif =
      some (if pkg ≠ rn then false
        else if n.mod_path.length < rest.length then false
        else if rest = n.mod_path.take rest.length then
          (if n.mod_path.length = rest.length then tif else true)
        else false) := by
  unfold Namespace.module_is_submodule_of
  rw [h]
  dsimp only
  by_cases hpkg : rn = pkg
  · subst hpkg
    by_cases hlen : n.mod_path.length < rest.length
    · simp [hlen]
    · rw [zip_all_beq_eq_take rest n.mod_path (Nat.le_of_not_lt hlen)]
      by_cases htake : n.mod_path.take rest.length = rest
      · by_cases heq : n.mod_path.length = rest.length <;>
          simp [hlen, htake, heq]
      · simp [hlen, Ne.symm htake]
  · simp [hpkg, Ne.symm hpkg]

/-- Witness for C2 at a concrete namespace: package "pkg", current path
`[a, b]`, queried with absolute path `[pkg, a]`. -/
theorem module_is_submodule_of_spec_witness :
    (Namespace.mk pkgRootModule ⟨pkgRootModule⟩
        ["a", "b"]).module_is_submodule_of ["pkg", "a"] false =
      some (if ("pkg" : String) ≠ "pkg" then false
        else if (["a", "b"] : List String).length < (["a"] : List String).length then false
        else if (["a"] : List String) = (["a", "b"] : List String).take 1 then
          (if (["a", "b"] : List String).length = (["a"] : List String).length
            then false else true)
        else false) :=
  module_is_submodule_of_spec
    (Namespace.mk pkgRootModule ⟨pkgRootModule⟩ ["a", "b"]) "pkg" "pkg" ["a"]
    false rfl

/-- C3: the source aborts on an empty absolute path instead of returning a
`MalformedPath` diagnostic: both predicates hit a `panic` (`expect` at line
172, `assert!` at line 206, or the root-name `panic!`), modelled by `none`. -/
theorem empty_path_aborts (n : Namespace) (tif : Bool) :
    n.module_is_submodule_of [] tif = none ∧ n.module_is_ext [] = none := by
  constructor
  · unfold Namespace.module_is_submodule_of
    cases n.root.module.name <;> rfl
  · unfold Namespace.module_is_ext
    cases n.root.module.name <;> rfl

/-- C4: the source aborts when the addressed path has no tree node instead of
returning a `MissingModule` diagnostic: `Namespace::module` indexes the tree
unchecked (line 83), modelled by `none` here — at path `["foo"]` over a
childless root the access aborts. -/
theorem module_missing_path_aborts :
    (Namespace.mk pkgRootModule ⟨pkgRootModule⟩ ["foo"]).module = none := rfl

/-- C5: with the tree's package name set, `module_is_external` on a non-empty
absolute path returns true exactly when the first segment differs from the
package name. -/
theorem module_is_ext_iff (n : Namespace) (rn first : String)
    (rest : List String) (h : n.root.module.name = some rn) :
    n.module_is_ext (first :: rest) = some true ↔ first ≠ rn := by
  unfold Namespace.module_is_ext
  rw [h]
  simp [bne_iff_ne, ne_comm]

/-- Witness for C5: absolute path `["dep", "x"]` against package "pkg" is
external. -/
theorem module_is_ext_iff_witness :
    (Namespace.mk pkgRootModule ⟨pkgRootModule⟩ []).module_is_ext ["dep", "x"] =
      some true :=
  (module_is_ext_iff (Namespace.mk pkgRootModule ⟨pkgRootModule⟩ [])
    "pkg" "dep" ["x"] rfl).mpr (by decide)

/-- C8: releasing a guard restores `mod_path` to the saved parent path and
touches nothing else: `init` and the whole module tree `root` are unchanged. -/
theorem release_frame (n : Namespace) (p : List String) :
    (n.release p).mod_path = p ∧ (n.release p).init = n.init ∧
      (n.release p).root = n.root :=
  ⟨rfl, rfl, rfl⟩

/-- C10: with the package name set, a bare-package absolute path `[pkg]` makes
`module_is_submodule_of` return true when `mod_path` is non-empty and
`true_if_same` when it is empty. -/
theorem submodule_of_bare_package (n : Namespace) (rn : String) (tif : Bool)
    (h : n.root.module.name = some rn) :
    n.module_is_submodule_of [rn] tif =
      some (if n.mod_path.isEmpty then tif else true) := by
  unfold Namespace.module_is_submodule_of
  rw [h]
  cases hmp : n.mod_path <;> simp

/-- C6: a successful `enter_submodule` never duplicates a child: the tree
stays well-formed, hence has exactly one node per absolute path; on re-entry
of an existing child the current module's child-name list is unchanged; on
first entry exactly the new name is appended, and the value the `or_insert`
of line 131 inserts for the missing child is precisely the seed `init`. -/
theorem enter_no_duplicate (n n' : Namespace) (a : String) (v : Visibility)
    (sp : Nat) (p : List String) (cur : Module)
    (hcur : n.module = some cur)
    (h : n.enter_submodule a v sp = some (n', p))
    (hwf_init : WF n.init) (hwf : WF n.root.module) :
    WF n'.root.module ∧
    (cur.submodules.lookup a = none →
      (entryOrInsert cur.submodules a n.init).lookup a = some n.init) ∧
    ((cur.submodules.lookup a).isSome →
      ∃ cur', moduleAt n'.root.module n.mod_path = some cur' ∧
        cur'.submodules.map Prod.fst = cur.submodules.map Prod.fst) ∧
    (cur.submodules.lookup a = none →
      ∃ cur', moduleAt n'.root.module n.mod_path = some cur' ∧
        cur'.submodules.map Prod.fst = cur.submodules.map Prod.fst ++ [a]) := by
  unfold Namespace.enter_submodule at h
  split at h
  · simp at h
  · rename_i x1 root1 hroot1
    split at h
    · simp at h
    · rename_i x2 root2 hroot2
      simp only [Option.some.injEq, Prod.mk.injEq] at h
      obtain ⟨hn, hp⟩ := h
      subst hn
      have hwf1 : WF root1 :=
        wf_moduleModifyAt (fun c hc => wf_entryOrInsert hc hwf_init a)
          hroot1 hwf
      have hwf2 : WF root2 :=
        wf_moduleModifyAt (fun c hc => wf_setMeta hc a sp v) hroot2 hwf1
      obtain ⟨c0, hc0, hc0'⟩ := moduleAt_modify_self hroot1
      unfold Namespace.module at hcur
      rw [hc0] at hcur
      have hcc : c0 = cur := by injection hcur
      subst hcc
      obtain ⟨d, d', hd, hd', hkeys⟩ := moduleAt_modify_child_keys hroot2
      rw [hc0'] at hd
      have hdc : c0.setSubmodules (entryOrInsert c0.submodules a n.init) = d :=
        by injection hd
      refine ⟨hwf2, ?_, ?_, ?_⟩
      · intro hnone
        rw [lookup_entryOrInsert_self, hnone]
        rfl
      · intro hsome
        refine ⟨d', hd', ?_⟩
        rw [hkeys, ← hdc, submodules_setSubmodules, entryOrInsert_map_fst,
          if_pos hsome]
      · intro hnone
        refine ⟨d', hd', ?_⟩
        rw [hkeys, ← hdc, submodules_setSubmodules, entryOrInsert_map_fst,
          hnone]
        rfl

/-- Well-formedness of the concrete leaf module `pkgRootModule`. -/
theorem wf_pkgRootModule : WF pkgRootModule :=
  WF.mk pkgRootModule (by simp [pkgRootModule, Module.submodules])
    (by intro q hq; simp [pkgRootModule, Module.submodules] at hq)

/-- Witness for C6: entering "a" from the childless root of package "pkg". -/
theorem enter_no_duplicate_witness :
    WF (wEnterA.1).root.module ∧
    (pkgRootModule.submodules.lookup "a" = none →
      (entryOrInsert pkgRootModule.submodules "a" wNs0.init).lookup "a" =
        some wNs0.init) ∧
    ((pkgRootModule.submodules.lookup "a").isSome →
      ∃ cur', moduleAt (wEnterA.1).root.module wNs0.mod_path = some cur' ∧
        cur'.submodules.map Prod.fst = pkgRootModule.submodules.map Prod.fst) ∧
    (pkgRootModule.submodules.lookup "a" = none →
      ∃ cur', moduleAt (wEnterA.1).root.module wNs0.mod_path = some cur' ∧
        cur'.submodules.map Prod.fst =
          pkgRootModule.submodules.map Prod.fst ++ ["a"]) :=
  enter_no_duplicate wNs0 wEnterA.1 "a" .pub 0 wEnterA.2 pkgRootModule rfl rfl
    wf_pkgRootModule wf_pkgRootModule

/-- C7: on every successful `enter_submodule`, including re-entry of an
existing child, the module at the new `mod_path` has its name and span set to
the given values, its visibility set to the given visibility, and its
external flag cleared. -/
theorem enter_sets_metadata (n n' : Namespace) (a : String) (v : Visibility)
    (sp : Nat) (p : List String)
    (h : n.enter_submodule a v sp = some (n', p)) :
    ∃ m, moduleAt n'.root.module n'.mod_path = some m ∧
      m.name = some a ∧ m.span = some sp ∧ m.visibility = v ∧
      m.is_ext = false := by
  unfold Namespace.enter_submodule at h
  split at h
  · simp at h
  · rename_i x1 root1 hroot1
    split at h
    · simp at h
    · rename_i x2 root2 hroot2
      simp only [Option.some.injEq, Prod.mk.injEq] at h
      obtain ⟨hn, hp⟩ := h
      subst hn
      obtain ⟨c, hc1, hc2⟩ := moduleAt_modify_self hroot2
      exact ⟨c.setMeta a sp v, hc2, name_setMeta c a sp v,
        span_setMeta c a sp v, visibility_setMeta c a sp v,
        is_ext_setMeta c a sp v⟩

/-- Witness for C7: entering "a" from the root of package "pkg". -/
theorem enter_sets_metadata_witness :
    ∃ m, moduleAt (wEnterA.1).root.module (wEnterA.1).mod_path = some m ∧
      m.name = some "a" ∧ m.span = some 0 ∧ m.visibility = Visibility.pub ∧
      m.is_ext = false :=
  enter_sets_metadata wNs0 wEnterA.1 "a" Visibility.pub 0 wEnterA.2 rfl

/-- A traversal step preserves the cursor invariant. -/
theorem stepOp_preserves {s s' : TravState} {op : Op}
    (h : stepOp s op = some s') (hs : CursorInTree s) : CursorInTree s' := by
  obtain ⟨hc, hg⟩ := hs
  cases op with
  | release =>
    simp only [stepOp] at h
    split at h
    · rename_i p rest hgd
      simp only [Option.some.injEq] at h
      subst h
      refine ⟨?_, ?_⟩
      · exact hg p (by rw [hgd]; exact List.mem_cons_self _ _)
      · intro q hq
        exact hg q (by rw [hgd]; exact List.mem_cons_of_mem _ hq)
    · simp at h
  | enter a v sp =>
    simp only [stepOp] at h
    split at h
    · rename_i x1 n1 p1 he
      simp only [Option.some.injEq] at h
      subst h
      unfold Namespace.enter_submodule at he
      split at he
      · simp at he
      · rename_i y1 root1 hroot1
        split at he
        · simp at he
        · rename_i y2 root2 hroot2
          simp only [Option.some.injEq, Prod.mk.injEq] at he
          obtain ⟨hn, hp⟩ := he
          subst hn
          subst hp
          have keep1 : ∀ q, (moduleAt s.ns.root.module q).isSome →
              (moduleAt root1 q).isSome :=
            moduleAt_modify_isSome (keeps_entryOrInsert a s.ns.init) hroot1
          have keep2 : ∀ q, (moduleAt root1 q).isSome →
              (moduleAt root2 q).isSome :=
            moduleAt_modify_isSome (keeps_setMeta a sp v) hroot2
          refine ⟨?_, ?_⟩
          · obtain ⟨c, -, hc2⟩ := moduleAt_modify_self hroot2
            show (moduleAt root2 (s.ns.mod_path ++ [a])).isSome
            rw [hc2]
            rfl
          · intro q hq
            rcases List.mem_cons.mp hq with hq' | hq'
            · subst hq'
              exact keep2 _ (keep1 _ hc)
            · exact keep2 _ (keep1 _ (hg _ hq'))
    · simp at h

/-- C9: starting from `init_root` with the empty path, any sequence of
`enter_submodule` calls and guard releases that runs to completion leaves the
cursor naming an existing node of the module tree. -/
theorem cursor_never_leaves_tree (ini : Module) (ops : List Op)
    (s : TravState)
    (h : runOps ⟨Namespace.init_root ini, []⟩ ops = some s) :
    (moduleAt s.ns.root.module s.ns.mod_path).isSome := by
  have base : CursorInTree ⟨Namespace.init_root ini, []⟩ := by
    refine ⟨?_, ?_⟩
    · simp [Namespace.init_root, moduleAt]
    · intro q hq
      cases hq
  have main : ∀ (ops : List Op) (s0 s1 : TravState), CursorInTree s0 →
      runOps s0 ops = some s1 → CursorInTree s1 := by
    intro ops
    induction ops with
    | nil =>
      intro s0 s1 h0 hr
      simp only [runOps, Option.some.injEq] at hr
      subst hr
      exact h0
    | cons op ops ih =>
      intro s0 s1 h0 hr
      simp only [runOps] at hr
      split at hr
      · rename_i x1 s2 hst
        exact ih s2 s1 (stepOp_preserves hst h0) hr
      · simp at hr
  exact (main ops _ s base h).1

/-- Witness for C9: the concrete operation sequence `wOps` runs to completion
and its final cursor addresses a node of the tree. -/
theorem cursor_never_leaves_tree_witness :
    (moduleAt wFinal.ns.root.module wFinal.ns.mod_path).isSome :=
  cursor_never_leaves_tree pkgRootModule wOps wFinal rfl

/-- Witness for C10: package "pkg", current path `["a"]`, bare path
`["pkg"]` with `true_if_same = false` yields true. -/
theorem submodule_of_bare_package_witness :
    (Namespace.mk pkgRootModule ⟨pkgRootModule⟩
        ["a"]).module_is_submodule_of ["pkg"] false =
      some (if (["a"] : List String).isEmpty then false else true) :=
  submodule_of_bare_package
    (Namespace.mk pkgRootModule ⟨pkgRootModule⟩ ["a"]) "pkg" false rfl

end Sway
